import Mathlib

/-!
Verification model of the NDN hash index in `src/antlr/actual/ndn/ndn.c`.

The index (`ndn_contains`, `ndn_ht_insert`, the initialisation in `ndn_init`,
and the prefix-generation loop of `ndn_init`) is embedded shallowly:

* a key (a URL prefix) is a list of byte values (`List Nat`, each `< 256`);
* the hash-table state `NdnHt` carries the bucket index (`ht_index`, a map
  from bucket number and slot number to the 64-bit slot value), the byte log
  (`ht_log`, a map from offset to byte), and the append cursor `log_head`;
* `CityHash64` and the compile-time constants from `ndn.h` (which is not part
  of the sources) are parameters of the model, gathered in `NdnParams`.

C `char` is signed on the target platform, so `(uint16_t) url[len - 2]`
sign-extends: bytes `≥ 128` produce tags `≥ 0xFF00`.  This is modelled
faithfully in the tag computations.
-/

namespace Ndn

/-- Modelled from the spec: the macro `NDN_SLOT_TO_OFFSET` of `ndn.h` is not in
the sources; spec §3 fixes the slot layout `{ tag : u16, offset : u48 }`, so the
offset is the low 48 bits of the 64-bit slot value. -/
def slotToOffset (s : Nat) : Nat := s % 2 ^ 48

/-- Modelled from the spec: the macro `NDN_SLOT_TO_TAG` of `ndn.h` is not in
the sources; spec §3 fixes the slot layout `{ tag : u16, offset : u48 }`, so the
tag is the high 16 bits of the 64-bit slot value. -/
def slotToTag (s : Nat) : Nat := s >>> 48

/-- Modelled from the spec: compile-time parameters of the C module.  `hash`
stands for `CityHash64` (external library), `numBkt_` for the bucket mask
`NDN_NUM_BKT_` (= `NUM_BUCKETS - 1` per spec §4.2), `logCap` for `NDN_LOG_CAP`,
`headroom` for `NDN_LOG_HEADROOM`, and `maxUrlLen` for `NDN_MAX_URL_LENGTH`.
Spec §3 requires key lengths to fit the `u8` length field (`maxUrlLen_le`),
spec §4.1 requires the headroom to cover a worst-case record (`headroom_ge`),
and spec §3 requires offsets to fit 48 bits (`logCap_le`). -/
structure NdnParams where
  hash : List Nat → Nat
  numBkt_ : Nat
  logCap : Nat
  headroom : Nat
  maxUrlLen : Nat
  maxUrlLen_le : maxUrlLen ≤ 255
  headroom_ge : 3 + maxUrlLen ≤ headroom
  logCap_le : logCap ≤ 2 ^ 48

/-- The two bytes of the 16-bit tag in memory order (little endian), as hashed
by `CityHash64((char *) &tag, 2)`. -/
def tagBytes (t : Nat) : List Nat := [t % 256, t / 256]

/-- Tag computation of `ndn_contains` (line 37):
`uint16_t tag = (uint16_t) url[len - 2]`, with sign extension of the char. -/
def containsTag (key : List Nat) : Nat :=
  let b := key.getD (key.length - 2) 0
  if 128 ≤ b then 65280 + b else b

/-- Primary candidate bucket of `ndn_contains` (line 48):
`CityHash64(url, len) & NDN_NUM_BKT_`. -/
def containsBkt1 (p : NdnParams) (key : List Nat) : Nat :=
  p.hash key &&& p.numBkt_

/-- Secondary candidate bucket of `ndn_contains` (line 51):
`(bkt_1 ^ CityHash64((char *) &tag, 2)) & NDN_NUM_BKT_`. -/
def containsBkt2 (p : NdnParams) (key : List Nat) : Nat :=
  (containsBkt1 p key ^^^ p.hash (tagBytes (containsTag key))) &&& p.numBkt_

/-- Tag computation of `ndn_ht_insert` (line 101), textually duplicated in the
C source. -/
def insertTag (key : List Nat) : Nat :=
  let b := key.getD (key.length - 2) 0
  if 128 ≤ b then 65280 + b else b

/-- Primary candidate bucket of `ndn_ht_insert` (line 112), textually
duplicated in the C source. -/
def insertBkt1 (p : NdnParams) (key : List Nat) : Nat :=
  p.hash key &&& p.numBkt_

/-- Secondary candidate bucket of `ndn_ht_insert` (line 115), textually
duplicated in the C source. -/
def insertBkt2 (p : NdnParams) (key : List Nat) : Nat :=
  (insertBkt1 p key ^^^ p.hash (tagBytes (insertTag key))) &&& p.numBkt_

/-- Modelled from the spec: `primary_bucket(key) = hash64(key) & (NUM_BUCKETS - 1)`
(spec §4.2), for the refinement comparison of claim C7. -/
def spec_primary_bucket (p : NdnParams) (key : List Nat) : Nat :=
  p.hash key &&& p.numBkt_

/-- Modelled from the spec: `secondary_bucket(primary, tag) =
(primary XOR hash64(tag_bytes)) & (NUM_BUCKETS - 1)` (spec §4.2), for the
refinement comparison of claim C7. -/
def spec_secondary_bucket (p : NdnParams) (primary tag : Nat) : Nat :=
  (primary ^^^ p.hash (tagBytes tag)) &&& p.numBkt_

/-- State of `struct ndn_ht`: the bucket index `ht_index[b].slot[i]` (64-bit
slot values), the byte log `ht_log`, and the append cursor `log_head`. -/
structure NdnHt where
  index : Nat → Nat → Nat
  log : Nat → Nat
  log_head : Nat

/-- Offset field of slot `i` of bucket `b`. -/
def slotOff (ht : NdnHt) (b i : Nat) : Nat := slotToOffset (ht.index b i)

/-- The `len` key bytes of the record at `off` (the record's key starts at
`&ht_log[off + 3]`). -/
def logKeyBytes (log : Nat → Nat) (off len : Nat) : List Nat :=
  (List.range len).map fun j => log (off + 3 + j)

/-- Match test of the lookup scan (`ndn_contains` lines 62-66): the slot is
occupied, its tag equals the key's tag, the record's length byte equals
`(uint8_t) len`, and the record's key bytes equal the key. -/
def slotMatch (log : Nat → Nat) (key : List Nat) (tag s : Nat) : Bool :=
  decide (slotToOffset s ≠ 0) && decide (slotToTag s = tag) &&
  decide (log (slotToOffset s) = key.length % 256) &&
  decide (logKeyBytes log (slotToOffset s) key.length = key)

/-- Scan order of both candidate-bucket loops: bucket `b1` slots `0..7`, then
bucket `b2` slots `0..7`. -/
def scanPositions (b1 b2 : Nat) : List (Nat × Nat) :=
  ((List.range 8).map fun i => (b1, i)) ++ ((List.range 8).map fun i => (b2, i))

/-- First (bucket, slot) position in scan order whose slot fully matches `key`
(the position at which `ndn_contains` returns 1). -/
def findMatchSlot (p : NdnParams) (ht : NdnHt) (key : List Nat) : Option (Nat × Nat) :=
  (scanPositions (containsBkt1 p key) (containsBkt2 p key)).find?
    fun bi => slotMatch ht.log key (containsTag key) (ht.index bi.1 bi.2)

/-- Byte stored for a C `int` destination port written into the `uint8_t` log
(two's complement truncation: `-1` is stored as `255`). -/
def dstByte (d : Int) : Nat := (d % 256).toNat

/-- Shallow embedding of `ndn_contains` (lines 29-81).  Returns the C return
value (1 = found, 0 = not found) together with the state after the call; on a
full match of a currently non-terminal record with `is_terminal = 1`, the
record's metadata bytes at `off + 1` and `off + 2` are upgraded in place. -/
def ndn_contains (p : NdnParams) (key : List Nat) (is_terminal : Nat)
    (dst_port_id : Int) (ht : NdnHt) : Nat × NdnHt :=
  match findMatchSlot p ht key with
  | none => (0, ht)
  | some bi =>
      let off := slotOff ht bi.1 bi.2
      if ht.log (off + 1) = 0 ∧ is_terminal = 1 then
        (1, ⟨ht.index,
             fun j => if j = off + 1 then 1
                      else if j = off + 2 then dstByte dst_port_id
                      else ht.log j,
             ht.log_head⟩)
      else (1, ht)

/-- First (bucket, slot) position in scan order whose slot is unoccupied
(offset 0), as scanned by `ndn_ht_insert` lines 120-124. -/
def findEmptySlot (p : NdnParams) (ht : NdnHt) (key : List Nat) : Option (Nat × Nat) :=
  (scanPositions (insertBkt1 p key) (insertBkt2 p key)).find?
    fun bi => decide (slotOff ht bi.1 bi.2 = 0)

/-- Log after writing a record at `off` (`ndn_ht_insert` lines 135-138):
length byte, `is_terminal` byte, destination-port byte, then the key bytes. -/
def writeRecord (log : Nat → Nat) (off : Nat) (key : List Nat)
    (is_terminal : Nat) (dpb : Nat) : Nat → Nat :=
  fun j =>
    if j = off then key.length % 256
    else if j = off + 1 then is_terminal % 256
    else if j = off + 2 then dpb
    else if off + 3 ≤ j ∧ j < off + 3 + key.length then key.getD (j - (off + 3)) 0
    else log j

/-- State after the append branch of `ndn_ht_insert` (lines 125-140): the empty
slot `bi` receives `((ULL) tag << 48) | insert_offset`, the record is written
at `log_head`, and `log_head` advances by `3 + len`. -/
def appendState (p : NdnParams) (ht : NdnHt) (key : List Nat)
    (is_terminal : Nat) (dst_port_id : Int) (bi : Nat × Nat) : NdnHt :=
  ⟨fun b i => if b = bi.1 ∧ i = bi.2
              then (insertTag key <<< 48) ||| ht.log_head
              else ht.index b i,
   writeRecord ht.log ht.log_head key is_terminal (dstByte dst_port_id),
   ht.log_head + (3 + key.length)⟩

/-- Shallow embedding of `ndn_ht_insert` (lines 85-147).  `some (0, ht')` is a
successful return 0, `some (-1, ht')` the recoverable bucket-full failure
(return -1), and `none` the fatal capacity assertion
`assert(insert_offset + NDN_LOG_HEADROOM < NDN_LOG_CAP)` firing. -/
def ndn_ht_insert (p : NdnParams) (key : List Nat) (is_terminal : Nat)
    (dst_port_id : Int) (ht : NdnHt) : Option (Int × NdnHt) :=
  let r := ndn_contains p key is_terminal dst_port_id ht
  if r.1 = 1 then some (0, r.2)
  else
    match findEmptySlot p r.2 key with
    | none => some (-1, r.2)
    | some bi =>
        if r.2.log_head + p.headroom < p.logCap then
          some (0, appendState p r.2 key is_terminal dst_port_id bi)
        else none

/-- State produced by `ndn_init` before any insertion (lines 161-176): both
shared-memory regions are zero-filled and `log_head` is set to 1 so that
offset 0 can serve as the empty-slot sentinel. -/
def ndn_new : NdnHt := ⟨fun _ _ => 0, fun _ => 0, 1⟩

/-- Both candidate buckets of `key` are completely occupied (16/16 slots with
nonzero offsets). -/
def bucketsFull (p : NdnParams) (ht : NdnHt) (key : List Nat) : Prop :=
  ∀ i, i < 8 → slotOff ht (insertBkt1 p key) i ≠ 0 ∧ slotOff ht (insertBkt2 p key) i ≠ 0

/-- Validity of a key, as asserted by `ndn_ht_insert` (`len >= 2`,
`len <= NDN_MAX_URL_LENGTH`) together with the byte-range invariant of C
`char` data. -/
def ValidKey (p : NdnParams) (key : List Nat) : Prop :=
  2 ≤ key.length ∧ key.length ≤ p.maxUrlLen ∧ ∀ b ∈ key, b < 256

/-- An operation against the table: an insertion or a lookup. -/
inductive NdnOp
  | ins (key : List Nat) (is_terminal : Nat) (dst_port_id : Int)
  | look (key : List Nat) (is_terminal : Nat) (dst_port_id : Int)

/-- Run one operation; `none` only on the fatal capacity assertion. -/
def runOp (p : NdnParams) (op : NdnOp) (ht : NdnHt) : Option NdnHt :=
  match op with
  | .ins k it dp => (ndn_ht_insert p k it dp ht).map Prod.snd
  | .look k it dp => some (ndn_contains p k it dp ht).2

/-- Run a sequence of operations. -/
def runSeq (p : NdnParams) (ops : List NdnOp) (ht : NdnHt) : Option NdnHt :=
  match ops with
  | [] => some ht
  | op :: rest =>
      match runOp p op ht with
      | none => none
      | some ht' => runSeq p rest ht'

/-- Validity requirement on an operation (insertions must carry valid keys). -/
def ValidOp (p : NdnParams) : NdnOp → Prop
  | .ins k _ _ => ValidKey p k
  | .look _ _ _ => True

/-- Insert-call sequence generated by the prefix loop of `ndn_init` (lines
194-210) for one scanned name.  `pre` is the already-processed part of the
buffer and `rest` the part still to scan; each `'/'` (byte 47) triggers a
non-terminal insertion of the prefix up to and including it, and the
terminating NUL (end of the token) is replaced by `'/'` for a final terminal
insertion.  The model assumes the token is NUL-free and fits the buffer, both
of which the C driver guarantees (`fscanf("%s")` and the
`url[NDN_MAX_URL_LENGTH - 1] == 0` assertion). -/
def bulkCalls (dst_port_id : Int) (pre rest : List Nat) : List (List Nat × Nat × Int) :=
  match rest with
  | [] => [(pre ++ [47], 1, dst_port_id)]
  | c :: cs =>
      if c = 47 then (pre ++ [47], 0, -1) :: bulkCalls dst_port_id (pre ++ [47]) cs
      else bulkCalls dst_port_id (pre ++ [c]) cs

/-- Name built from `/`-delimited components (the scanned token of a name with
these components, before the terminating `'/'` is appended). -/
def joinSlash : List (List Nat) → List Nat
  | [] => []
  | [c] => c
  | c :: c' :: cs => c ++ 47 :: joinSlash (c' :: cs)

/-- Record region of a record starting at offset `o`, as delimited by its
length byte: the metadata bytes and the key bytes. -/
def inRegion (ht : NdnHt) (o j : Nat) : Prop :=
  o ≤ j ∧ j < o + 3 + ht.log o

/-- Structural invariant of the table, established by `ndn_new` and preserved
by every operation: the append cursor stays past the reserved offset 0, log
cells hold bytes, every occupied slot references a record fully contained in
the already-appended part of the log, and records of distinct occupied slots
occupy disjoint log regions. -/
structure Wf (p : NdnParams) (ht : NdnHt) : Prop where
  head_pos : 1 ≤ ht.log_head
  bytes_lt : ∀ j, ht.log j < 256
  regions : ∀ b i, i < 8 → slotOff ht b i ≠ 0 →
    slotOff ht b i + 3 + ht.log (slotOff ht b i) ≤ ht.log_head
  disj : ∀ b i b' i', i < 8 → i' < 8 → (b, i) ≠ (b', i') →
    slotOff ht b i ≠ 0 → slotOff ht b' i' ≠ 0 →
    (slotOff ht b i + 3 + ht.log (slotOff ht b i) ≤ slotOff ht b' i' ∨
     slotOff ht b' i' + 3 + ht.log (slotOff ht b' i') ≤ slotOff ht b i)

/-! Concrete instantiations used to evaluate the model on sample inputs: a
small deterministic stand-in hash, a parameter block with 4 buckets, and a
parameter block with a single bucket (mask 0) that can be filled up. -/

def hashT (l : List Nat) : Nat := l.foldl (fun a b => 2 * a + b + 1) 5

def pTest : NdnParams := ⟨hashT, 3, 4096, 19, 16, by norm_num, by norm_num, by norm_num⟩

def pFull : NdnParams := ⟨hashT, 0, 4096, 19, 16, by norm_num, by norm_num, by norm_num⟩

def keyA : List Nat := [97, 47]

def keyB : List Nat := [98, 47]

def key9 : List Nat := [105, 47]

/-- Table after a terminal insert of `keyA` into the fresh table. -/
def htT : NdnHt := ((ndn_ht_insert pTest keyA 1 7 ndn_new).getD (0, ndn_new)).2

/-- Table after a non-terminal insert of `keyA` into the fresh table. -/
def htN : NdnHt := ((ndn_ht_insert pTest keyA 0 0 ndn_new).getD (0, ndn_new)).2

/-- Table after inserting `keyA` (terminal) and then `keyB` (non-terminal). -/
def htT2 : NdnHt := (runSeq pTest [.ins keyB 0 0] htT).getD ndn_new

/-- Table after the upgrading lookup (port 5) on the non-terminal record. -/
def htU : NdnHt := (ndn_contains pTest keyA 1 5 htN).2

/-- Table after the re-upgrade attempt (port 9) on the already-terminal record. -/
def htLook : NdnHt := (runSeq pTest [.look keyA 1 9] htT).getD ndn_new

/-- Eight inserts that fill the single bucket of `pFull` completely. -/
def opsFull : List NdnOp :=
  [.ins [97, 47] 0 0, .ins [98, 47] 0 0, .ins [99, 47] 0 0, .ins [100, 47] 0 0,
   .ins [101, 47] 0 0, .ins [102, 47] 0 0, .ins [103, 47] 0 0, .ins [104, 47] 0 0]

/-- Table with both candidate buckets of `key9` full (single-bucket mask). -/
def htFull : NdnHt := (runSeq pFull opsFull ndn_new).getD ndn_new

/-! Basic facts about the slot encoding, bytes and scans. -/

theorem slotToOffset_pack (t off : Nat) (hoff : off < 2 ^ 48) :
    slotToOffset ((t <<< 48) ||| off) = off := by
  unfold slotToOffset
  apply Nat.eq_of_testBit_eq
  intro i
  rw [Nat.testBit_mod_two_pow, Nat.testBit_or, Nat.testBit_shiftLeft]
  by_cases h : i < 48
  · have h48 : ¬ (i ≥ 48) := by omega
    simp [h, h48]
  · have hbit : off.testBit i = false :=
      Nat.testBit_lt_two_pow
        (lt_of_lt_of_le hoff (Nat.pow_le_pow_right (by norm_num) (by omega)))
    simp [h, hbit]

theorem slotToTag_pack (t off : Nat) (hoff : off < 2 ^ 48) :
    slotToTag ((t <<< 48) ||| off) = t := by
  unfold slotToTag
  apply Nat.eq_of_testBit_eq
  intro i
  rw [Nat.testBit_shiftRight, Nat.testBit_or, Nat.testBit_shiftLeft]
  have hbit : off.testBit (48 + i) = false :=
    Nat.testBit_lt_two_pow
      (lt_of_lt_of_le hoff (Nat.pow_le_pow_right (by norm_num) (by omega)))
  have h1 : 48 + i ≥ 48 := by omega
  have h2 : 48 + i - 48 = i := by omega
  simp [hbit, h1, h2]

theorem dstByte_lt (d : Int) : dstByte d < 256 := by
  unfold dstByte
  omega

theorem getD_lt_of_bytes {key : List Nat} (hb : ∀ b ∈ key, b < 256) (n : Nat) :
    key.getD n 0 < 256 := by
  by_cases h : n < key.length
  · rw [List.getD_eq_getElem key 0 h]
    exact hb _ (List.getElem_mem h)
  · rw [List.getD_eq_default key 0 (by omega)]
    norm_num

theorem containsTag_lt {key : List Nat} (hb : ∀ b ∈ key, b < 256) :
    containsTag key < 65536 := by
  have := getD_lt_of_bytes hb (key.length - 2)
  unfold containsTag
  dsimp only
  split <;> omega

theorem insertTag_eq (key : List Nat) : insertTag key = containsTag key := rfl

theorem insertBkt1_eq (p : NdnParams) (key : List Nat) :
    insertBkt1 p key = containsBkt1 p key := rfl

theorem insertBkt2_eq (p : NdnParams) (key : List Nat) :
    insertBkt2 p key = containsBkt2 p key := rfl

theorem slotMatch_iff {log : Nat → Nat} {key : List Nat} {tag s : Nat} :
    slotMatch log key tag s = true ↔
      slotToOffset s ≠ 0 ∧ slotToTag s = tag ∧
      log (slotToOffset s) = key.length % 256 ∧
      logKeyBytes log (slotToOffset s) key.length = key := by
  simp [slotMatch, and_assoc]

theorem mem_scanPositions {b1 b2 : Nat} {bi : Nat × Nat} :
    bi ∈ scanPositions b1 b2 ↔ bi.2 < 8 ∧ (bi.1 = b1 ∨ bi.1 = b2) := by
  rcases bi with ⟨b, i⟩
  simp only [scanPositions, List.mem_append, List.mem_map, List.mem_range,
    Prod.mk.injEq]
  constructor
  · rintro (⟨a, ha, rfl, rfl⟩ | ⟨a, ha, rfl, rfl⟩) <;> simp [ha]
  · rintro ⟨hi, rfl | rfl⟩
    · exact Or.inl ⟨i, hi, rfl, rfl⟩
    · exact Or.inr ⟨i, hi, rfl, rfl⟩

theorem map_getD_range (l : List Nat) :
    (List.range l.length).map (fun j => l.getD j 0) = l := by
  apply List.ext_getElem (by simp)
  intro i h1 h2
  simp only [List.getElem_map, List.getElem_range]
  exact List.getD_eq_getElem l 0 h2

/-! Reading back a freshly written record. -/

theorem writeRecord_at (log : Nat → Nat) (off : Nat) (key : List Nat) (it dpb : Nat) :
    writeRecord log off key it dpb off = key.length % 256 := by
  unfold writeRecord
  rw [if_pos rfl]

theorem writeRecord_at1 (log : Nat → Nat) (off : Nat) (key : List Nat) (it dpb : Nat) :
    writeRecord log off key it dpb (off + 1) = it % 256 := by
  unfold writeRecord
  rw [if_neg (by omega), if_pos rfl]

theorem writeRecord_at2 (log : Nat → Nat) (off : Nat) (key : List Nat) (it dpb : Nat) :
    writeRecord log off key it dpb (off + 2) = dpb := by
  unfold writeRecord
  rw [if_neg (by omega), if_neg (by omega), if_pos rfl]

theorem writeRecord_key (log : Nat → Nat) (off : Nat) (key : List Nat) (it dpb : Nat)
    (j : Nat) (hj : j < key.length) :
    writeRecord log off key it dpb (off + 3 + j) = key.getD j 0 := by
  unfold writeRecord
  rw [if_neg (by omega), if_neg (by omega), if_neg (by omega), if_pos (by omega)]
  congr 1
  omega

theorem writeRecord_other (log : Nat → Nat) (off : Nat) (key : List Nat) (it dpb : Nat)
    (j : Nat) (hj : j < off ∨ off + 3 + key.length ≤ j) :
    writeRecord log off key it dpb j = log j := by
  unfold writeRecord
  rw [if_neg (by omega), if_neg (by omega), if_neg (by omega), if_neg (by omega)]

theorem logKeyBytes_writeRecord (log : Nat → Nat) (off : Nat) (key : List Nat)
    (it dpb : Nat) :
    logKeyBytes (writeRecord log off key it dpb) off key.length = key := by
  unfold logKeyBytes
  have h : ∀ j ∈ List.range key.length,
      writeRecord log off key it dpb (off + 3 + j) = key.getD j 0 := by
    intro j hj
    exact writeRecord_key log off key it dpb j (List.mem_range.mp hj)
  rw [List.map_congr_left h]
  exact map_getD_range key

/-! Shape lemmas for `ndn_contains` and `ndn_ht_insert`. -/

theorem ndn_contains_not_found {p : NdnParams} {ht : NdnHt} {key : List Nat}
    (h : findMatchSlot p ht key = none) (it : Nat) (dp : Int) :
    ndn_contains p key it dp ht = (0, ht) := by
  unfold ndn_contains
  rw [h]

theorem ndn_contains_fst (p : NdnParams) (key : List Nat) (it : Nat) (dp : Int)
    (ht : NdnHt) :
    (ndn_contains p key it dp ht).1 =
      if (findMatchSlot p ht key).isSome then 1 else 0 := by
  unfold ndn_contains
  rcases h : findMatchSlot p ht key with _ | bi
  · simp
  · dsimp only
    split <;> simp

theorem ndn_contains_found_iff {p : NdnParams} {ht : NdnHt} {key : List Nat}
    {it : Nat} {dp : Int} :
    (ndn_contains p key it dp ht).1 = 1 ↔ (findMatchSlot p ht key).isSome := by
  rw [ndn_contains_fst]
  split <;> simp_all

theorem ndn_contains_zero_iff {p : NdnParams} {ht : NdnHt} {key : List Nat}
    {it : Nat} {dp : Int} :
    (ndn_contains p key it dp ht).1 = 0 ↔ findMatchSlot p ht key = none := by
  rw [ndn_contains_fst]
  rcases h : findMatchSlot p ht key with _ | bi <;> simp [h]

theorem ndn_contains_fst_congr (p : NdnParams) (key : List Nat) (it it' : Nat)
    (dp dp' : Int) (ht : NdnHt) :
    (ndn_contains p key it dp ht).1 = (ndn_contains p key it' dp' ht).1 := by
  rw [ndn_contains_fst, ndn_contains_fst]

theorem ndn_contains_snd_cases (p : NdnParams) (key : List Nat) (it : Nat)
    (dp : Int) (ht : NdnHt) :
    (ndn_contains p key it dp ht).2 = ht ∨
    ∃ bi, findMatchSlot p ht key = some bi ∧
      ht.log (slotOff ht bi.1 bi.2 + 1) = 0 ∧ it = 1 ∧
      (ndn_contains p key it dp ht).2 =
        ⟨ht.index,
         fun j => if j = slotOff ht bi.1 bi.2 + 1 then 1
                  else if j = slotOff ht bi.1 bi.2 + 2 then dstByte dp
                  else ht.log j,
         ht.log_head⟩ := by
  unfold ndn_contains
  rcases h : findMatchSlot p ht key with _ | bi
  · exact Or.inl rfl
  · dsimp only
    split
    · next hcond => exact Or.inr ⟨bi, rfl, hcond.1, hcond.2, rfl⟩
    · exact Or.inl rfl

theorem insert_of_found {p : NdnParams} {ht : NdnHt} {key : List Nat}
    {it : Nat} {dp : Int} (h : (ndn_contains p key it dp ht).1 = 1) :
    ndn_ht_insert p key it dp ht = some (0, (ndn_contains p key it dp ht).2) := by
  unfold ndn_ht_insert
  simp [h]

theorem insert_bucketFull {p : NdnParams} {ht : NdnHt} {key : List Nat}
    (hnf : findMatchSlot p ht key = none)
    (hfe : findEmptySlot p ht key = none) (it : Nat) (dp : Int) :
    ndn_ht_insert p key it dp ht = some (-1, ht) := by
  unfold ndn_ht_insert
  rw [ndn_contains_not_found hnf it dp]
  simp [hfe]

theorem insert_append {p : NdnParams} {ht : NdnHt} {key : List Nat} {bi : Nat × Nat}
    (hnf : findMatchSlot p ht key = none)
    (hfe : findEmptySlot p ht key = some bi)
    (hcap : ht.log_head + p.headroom < p.logCap) (it : Nat) (dp : Int) :
    ndn_ht_insert p key it dp ht = some (0, appendState p ht key it dp bi) := by
  unfold ndn_ht_insert
  rw [ndn_contains_not_found hnf it dp]
  simp [hfe, hcap]

theorem insert_capacity {p : NdnParams} {ht : NdnHt} {key : List Nat} {bi : Nat × Nat}
    (hnf : findMatchSlot p ht key = none)
    (hfe : findEmptySlot p ht key = some bi)
    (hcap : ¬ ht.log_head + p.headroom < p.logCap) (it : Nat) (dp : Int) :
    ndn_ht_insert p key it dp ht = none := by
  unfold ndn_ht_insert
  rw [ndn_contains_not_found hnf it dp]
  simp [hfe, hcap]

theorem insert_eq_cases {p : NdnParams} {ht ht' : NdnHt} {key : List Nat}
    {it : Nat} {dp : Int} {r : Int}
    (h : ndn_ht_insert p key it dp ht = some (r, ht')) :
    ((ndn_contains p key it dp ht).1 = 1 ∧ r = 0 ∧
      ht' = (ndn_contains p key it dp ht).2) ∨
    (findMatchSlot p ht key = none ∧
      ((findEmptySlot p ht key = none ∧ r = -1 ∧ ht' = ht) ∨
       (∃ bi, findEmptySlot p ht key = some bi ∧
          ht.log_head + p.headroom < p.logCap ∧ r = 0 ∧
          ht' = appendState p ht key it dp bi))) := by
  by_cases hf : (ndn_contains p key it dp ht).1 = 1
  · rw [insert_of_found hf] at h
    injection h with h
    exact Or.inl ⟨hf, congrArg Prod.fst h.symm, congrArg Prod.snd h.symm⟩
  · have hnf : findMatchSlot p ht key = none := by
      rcases hm : findMatchSlot p ht key with _ | bi
      · rfl
      · exact absurd (ndn_contains_found_iff.mpr (by rw [hm]; rfl)) hf
    refine Or.inr ⟨hnf, ?_⟩
    rcases hfe : findEmptySlot p ht key with _ | bi
    · rw [insert_bucketFull hnf hfe it dp] at h
      injection h with h
      exact Or.inl ⟨rfl, congrArg Prod.fst h.symm, congrArg Prod.snd h.symm⟩
    · by_cases hcap : ht.log_head + p.headroom < p.logCap
      · rw [insert_append hnf hfe hcap it dp] at h
        injection h with h
        exact Or.inr ⟨bi, rfl, hcap, congrArg Prod.fst h.symm, congrArg Prod.snd h.symm⟩
      · rw [insert_capacity hnf hfe hcap it dp] at h
        cases h

/-! Facts about the two scans. -/

theorem findMatchSlot_some {p : NdnParams} {ht : NdnHt} {key : List Nat}
    {bi : Nat × Nat} (h : findMatchSlot p ht key = some bi) :
    bi.2 < 8 ∧ (bi.1 = containsBkt1 p key ∨ bi.1 = containsBkt2 p key) ∧
    slotMatch ht.log key (containsTag key) (ht.index bi.1 bi.2) = true := by
  unfold findMatchSlot at h
  have hmem := mem_scanPositions.mp (List.mem_of_find?_eq_some h)
  have hps := List.find?_some h
  exact ⟨hmem.1, hmem.2, hps⟩

theorem findMatchSlot_isSome_of {p : NdnParams} {ht : NdnHt} {key : List Nat}
    {bi : Nat × Nat}
    (hmem : bi ∈ scanPositions (containsBkt1 p key) (containsBkt2 p key))
    (hm : slotMatch ht.log key (containsTag key) (ht.index bi.1 bi.2) = true) :
    (findMatchSlot p ht key).isSome := by
  unfold findMatchSlot
  rw [List.find?_isSome]
  exact ⟨bi, hmem, hm⟩

theorem findEmptySlot_some {p : NdnParams} {ht : NdnHt} {key : List Nat}
    {bi : Nat × Nat} (h : findEmptySlot p ht key = some bi) :
    bi.2 < 8 ∧ (bi.1 = insertBkt1 p key ∨ bi.1 = insertBkt2 p key) ∧
    slotOff ht bi.1 bi.2 = 0 := by
  unfold findEmptySlot at h
  have hmem := mem_scanPositions.mp (List.mem_of_find?_eq_some h)
  have hps := List.find?_some h
  exact ⟨hmem.1, hmem.2, of_decide_eq_true hps⟩

theorem findEmptySlot_none_iff {p : NdnParams} {ht : NdnHt} {key : List Nat} :
    findEmptySlot p ht key = none ↔ bucketsFull p ht key := by
  unfold findEmptySlot bucketsFull
  rw [List.find?_eq_none]
  constructor
  · intro h i hi
    refine ⟨fun h0 => ?_, fun h0 => ?_⟩
    · exact h (insertBkt1 p key, i) (mem_scanPositions.mpr ⟨hi, Or.inl rfl⟩)
        (decide_eq_true h0)
    · exact h (insertBkt2 p key, i) (mem_scanPositions.mpr ⟨hi, Or.inr rfl⟩)
        (decide_eq_true h0)
  · intro h x hx hdec
    have h0 := of_decide_eq_true hdec
    rcases mem_scanPositions.mp hx with ⟨hi, h1 | h2⟩
    · exact (h x.2 hi).1 (h1 ▸ h0)
    · exact (h x.2 hi).2 (h2 ▸ h0)

/-! Frame lemmas: classification of the writes performed by each operation.
A lookup never touches the index or the cursor, and changes log bytes only at
the two metadata bytes of an occupied record that was non-terminal; an insert
additionally may fill a previously-empty slot and write at or past the old
`log_head`. -/

theorem contains_frame (p : NdnParams) (key : List Nat) (it : Nat) (dp : Int)
    (ht : NdnHt) :
    (ndn_contains p key it dp ht).2.index = ht.index ∧
    (ndn_contains p key it dp ht).2.log_head = ht.log_head ∧
    ∀ j, (ndn_contains p key it dp ht).2.log j ≠ ht.log j →
      ∃ b i, i < 8 ∧ slotOff ht b i ≠ 0 ∧ ht.log (slotOff ht b i + 1) = 0 ∧
        (j = slotOff ht b i + 1 ∨ j = slotOff ht b i + 2) := by
  rcases ndn_contains_snd_cases p key it dp ht with h | ⟨bi, hfind, h0, _, h⟩
  · rw [h]
    exact ⟨rfl, rfl, fun j hj => absurd rfl hj⟩
  · rw [h]
    refine ⟨rfl, rfl, ?_⟩
    intro j hj
    obtain ⟨hi8, _, hmatch⟩ := findMatchSlot_some hfind
    have hocc : slotOff ht bi.1 bi.2 ≠ 0 := by
      have := (slotMatch_iff.mp hmatch).1
      exact this
    refine ⟨bi.1, bi.2, hi8, hocc, h0, ?_⟩
    dsimp only at hj
    by_cases h1 : j = slotOff ht bi.1 bi.2 + 1
    · exact Or.inl h1
    · by_cases h2 : j = slotOff ht bi.1 bi.2 + 2
      · exact Or.inr h2
      · rw [if_neg h1, if_neg h2] at hj
        exact absurd rfl hj

theorem insert_frame {p : NdnParams} {key : List Nat} {it : Nat} {dp : Int}
    {ht ht' : NdnHt} {r : Int}
    (h : ndn_ht_insert p key it dp ht = some (r, ht')) :
    ht.log_head ≤ ht'.log_head ∧
    (∀ b i, slotOff ht b i ≠ 0 → ht'.index b i = ht.index b i) ∧
    ∀ j, j < ht.log_head → ht'.log j ≠ ht.log j →
      ∃ b i, i < 8 ∧ slotOff ht b i ≠ 0 ∧ ht.log (slotOff ht b i + 1) = 0 ∧
        (j = slotOff ht b i + 1 ∨ j = slotOff ht b i + 2) := by
  rcases insert_eq_cases h with ⟨_, _, rfl⟩ | ⟨hnf, ⟨_, _, rfl⟩ | ⟨bi, hfe, _, _, rfl⟩⟩
  · obtain ⟨hidx, hhead, hlog⟩ := contains_frame p key it dp ht
    exact ⟨le_of_eq hhead.symm, fun b i _ => congrFun (congrFun hidx b) i,
           fun j _ hj => hlog j hj⟩
  · exact ⟨le_rfl, fun _ _ _ => rfl, fun j _ hj => absurd rfl hj⟩
  · obtain ⟨_, _, hempty⟩ := findEmptySlot_some hfe
    refine ⟨by simp [appendState], ?_, ?_⟩
    · intro b i hocc
      have hne : ¬ (b = bi.1 ∧ i = bi.2) := by
        rintro ⟨rfl, rfl⟩
        exact hocc hempty
      simp only [appendState]
      rw [if_neg hne]
    · intro j hj hne
      exact absurd (writeRecord_other ht.log ht.log_head key it (dstByte dp) j
        (Or.inl hj)) hne

theorem runOp_frame {p : NdnParams} {op : NdnOp} {ht ht' : NdnHt}
    (h : runOp p op ht = some ht') :
    ht.log_head ≤ ht'.log_head ∧
    (∀ b i, slotOff ht b i ≠ 0 → ht'.index b i = ht.index b i) ∧
    ∀ j, j < ht.log_head → ht'.log j ≠ ht.log j →
      ∃ b i, i < 8 ∧ slotOff ht b i ≠ 0 ∧ ht.log (slotOff ht b i + 1) = 0 ∧
        (j = slotOff ht b i + 1 ∨ j = slotOff ht b i + 2) := by
  cases op with
  | ins k it dp =>
      simp only [runOp] at h
      rcases hins : ndn_ht_insert p k it dp ht with _ | ⟨r, ht''⟩
      · rw [hins] at h
        simp at h
      · rw [hins] at h
        simp only [Option.map_some'] at h
        injection h with h
        subst h
        exact insert_frame hins
  | look k it dp =>
      simp only [runOp] at h
      injection h with h
      subst h
      obtain ⟨hidx, hhead, hlog⟩ := contains_frame p k it dp ht
      exact ⟨le_of_eq hhead.symm, fun b i _ => congrFun (congrFun hidx b) i,
             fun j _ hj => hlog j hj⟩

/-! Preservation of the structural invariant. -/

theorem region_inter {p : NdnParams} {ht : NdnHt} (hwf : Wf p ht)
    {b i b' i' j : Nat} (hi : i < 8) (hi' : i' < 8)
    (ho : slotOff ht b i ≠ 0) (ho' : slotOff ht b' i' ≠ 0)
    (h1 : inRegion ht (slotOff ht b i) j) (h2 : inRegion ht (slotOff ht b' i') j) :
    (b, i) = (b', i') := by
  by_contra hne
  rcases hwf.disj b i b' i' hi hi' hne ho ho' with h | h <;>
    · unfold inRegion at h1 h2
      omega

theorem wf_contains (p : NdnParams) (key : List Nat) (it : Nat) (dp : Int)
    (ht : NdnHt) (hwf : Wf p ht) :
    Wf p (ndn_contains p key it dp ht).2 := by
  rcases ndn_contains_snd_cases p key it dp ht with h | ⟨bi, hfind, h0, _, h⟩
  · rw [h]
    exact hwf
  · rw [h]
    obtain ⟨hi8, _, hmatch⟩ := findMatchSlot_some hfind
    have ho : slotOff ht bi.1 bi.2 ≠ 0 := (slotMatch_iff.mp hmatch).1
    have hkey : ∀ b' i', i' < 8 → slotOff ht b' i' ≠ 0 →
        slotOff ht b' i' ≠ slotOff ht bi.1 bi.2 + 1 ∧
        slotOff ht b' i' ≠ slotOff ht bi.1 bi.2 + 2 := by
      intro b' i' hi' ho'
      constructor <;> intro heq
      · have h1 : inRegion ht (slotOff ht bi.1 bi.2) (slotOff ht bi.1 bi.2 + 1) :=
          ⟨by omega, by omega⟩
        have h2 : inRegion ht (slotOff ht b' i') (slotOff ht bi.1 bi.2 + 1) := by
          rw [← heq]
          exact ⟨le_rfl, by omega⟩
        have heqp := region_inter hwf hi8 hi' ho ho' h1 h2
        rw [Prod.mk.injEq] at heqp
        rw [heqp.1, heqp.2] at heq
        omega
      · have h1 : inRegion ht (slotOff ht bi.1 bi.2) (slotOff ht bi.1 bi.2 + 2) :=
          ⟨by omega, by omega⟩
        have h2 : inRegion ht (slotOff ht b' i') (slotOff ht bi.1 bi.2 + 2) := by
          rw [← heq]
          exact ⟨le_rfl, by omega⟩
        have heqp := region_inter hwf hi8 hi' ho ho' h1 h2
        rw [Prod.mk.injEq] at heqp
        rw [heqp.1, heqp.2] at heq
        omega
    have hL : ∀ x, x ≠ slotOff ht bi.1 bi.2 + 1 → x ≠ slotOff ht bi.1 bi.2 + 2 →
        (if x = slotOff ht bi.1 bi.2 + 1 then 1
         else if x = slotOff ht bi.1 bi.2 + 2 then dstByte dp
         else ht.log x) = ht.log x := by
      intro x hx1 hx2
      rw [if_neg hx1, if_neg hx2]
    refine ⟨hwf.head_pos, ?_, ?_, ?_⟩
    · intro j
      dsimp only
      split
      · norm_num
      · split
        · exact dstByte_lt dp
        · exact hwf.bytes_lt j
    · intro b' i' hi' ho'
      have hk := hkey b' i' hi' ho'
      show slotOff ht b' i' + 3 +
          (if slotOff ht b' i' = slotOff ht bi.1 bi.2 + 1 then 1
           else if slotOff ht b' i' = slotOff ht bi.1 bi.2 + 2 then dstByte dp
           else ht.log (slotOff ht b' i')) ≤ ht.log_head
      rw [hL _ hk.1 hk.2]
      exact hwf.regions b' i' hi' ho'
    · intro b1 i1 b2 i2 hi1 hi2 hne ho1 ho2
      have ho1' : slotOff ht b1 i1 ≠ 0 := ho1
      have ho2' : slotOff ht b2 i2 ≠ 0 := ho2
      have hk1 := hkey b1 i1 hi1 ho1'
      have hk2 := hkey b2 i2 hi2 ho2'
      show slotOff ht b1 i1 + 3 +
          (if slotOff ht b1 i1 = slotOff ht bi.1 bi.2 + 1 then 1
           else if slotOff ht b1 i1 = slotOff ht bi.1 bi.2 + 2 then dstByte dp
           else ht.log (slotOff ht b1 i1)) ≤ slotOff ht b2 i2 ∨
        slotOff ht b2 i2 + 3 +
          (if slotOff ht b2 i2 = slotOff ht bi.1 bi.2 + 1 then 1
           else if slotOff ht b2 i2 = slotOff ht bi.1 bi.2 + 2 then dstByte dp
           else ht.log (slotOff ht b2 i2)) ≤ slotOff ht b1 i1
      rw [hL _ hk1.1 hk1.2, hL _ hk2.1 hk2.2]
      exact hwf.disj b1 i1 b2 i2 hi1 hi2 hne ho1' ho2'

theorem wf_new (p : NdnParams) : Wf p ndn_new := by
  refine ⟨le_rfl, fun j => by norm_num [ndn_new], ?_, ?_⟩
  · intro b i _ ho
    exact absurd (by simp [slotOff, ndn_new, slotToOffset]) ho
  · intro b i b' i' _ _ _ ho _
    exact absurd (by simp [slotOff, ndn_new, slotToOffset]) ho

theorem wf_insert {p : NdnParams} {key : List Nat} {it : Nat} {dp : Int}
    {ht ht' : NdnHt} {r : Int} (hwf : Wf p ht) (hk : ValidKey p key)
    (h : ndn_ht_insert p key it dp ht = some (r, ht')) : Wf p ht' := by
  rcases insert_eq_cases h with ⟨_, _, rfl⟩ | ⟨hnf, ⟨_, _, rfl⟩ | ⟨bi, hfe, hcap, _, rfl⟩⟩
  · exact wf_contains p key it dp ht hwf
  · exact hwf
  · obtain ⟨hi8, _, hempty⟩ := findEmptySlot_some hfe
    obtain ⟨hlen2, hlenM, hbytes⟩ := hk
    have h255 := p.maxUrlLen_le
    have hhr := p.headroom_ge
    have hcaple := p.logCap_le
    have hoff_lt : ht.log_head < 2 ^ 48 := by omega
    have hlen_byte : key.length % 256 = key.length := Nat.mod_eq_of_lt (by omega)
    have hdec : slotOff (appendState p ht key it dp bi) bi.1 bi.2 = ht.log_head := by
      unfold slotOff appendState
      dsimp only
      rw [if_pos ⟨rfl, rfl⟩]
      exact slotToOffset_pack _ _ hoff_lt
    have hsame : ∀ b i, ¬ (b = bi.1 ∧ i = bi.2) →
        slotOff (appendState p ht key it dp bi) b i = slotOff ht b i := by
      intro b i hne
      unfold slotOff appendState
      dsimp only
      rw [if_neg hne]
    have hold : ∀ x, x < ht.log_head →
        (appendState p ht key it dp bi).log x = ht.log x := by
      intro x hx
      exact writeRecord_other ht.log ht.log_head key it (dstByte dp) x (Or.inl hx)
    refine ⟨?_, ?_, ?_, ?_⟩
    · show 1 ≤ ht.log_head + (3 + key.length)
      have := hwf.head_pos
      omega
    · intro j
      show writeRecord ht.log ht.log_head key it (dstByte dp) j < 256
      unfold writeRecord
      split_ifs
      · omega
      · omega
      · exact dstByte_lt dp
      · exact getD_lt_of_bytes hbytes _
      · exact hwf.bytes_lt j
    · intro b i hi ho
      by_cases hb : b = bi.1 ∧ i = bi.2
      · obtain ⟨rfl, rfl⟩ := hb
        rw [hdec]
        have hlb : (appendState p ht key it dp bi).log ht.log_head = key.length := by
          show writeRecord ht.log ht.log_head key it (dstByte dp) ht.log_head = key.length
          rw [writeRecord_at]
          exact hlen_byte
        rw [hlb]
        show ht.log_head + 3 + key.length ≤ ht.log_head + (3 + key.length)
        omega
      · have hs := hsame b i hb
        rw [hs]
        have ho' : slotOff ht b i ≠ 0 := by
          rw [hs] at ho
          exact ho
        have hr2 := hwf.regions b i hi ho'
        have hlt : slotOff ht b i < ht.log_head := by omega
        rw [hold _ hlt]
        show slotOff ht b i + 3 + ht.log (slotOff ht b i) ≤ ht.log_head + (3 + key.length)
        omega
    · intro b1 i1 b2 i2 hi1 hi2 hne ho1 ho2
      by_cases hb1 : b1 = bi.1 ∧ i1 = bi.2 <;> by_cases hb2 : b2 = bi.1 ∧ i2 = bi.2
      · exact absurd (by rw [hb1.1, hb1.2, hb2.1, hb2.2]) hne
      · obtain ⟨rfl, rfl⟩ := hb1
        have hs2 := hsame b2 i2 hb2
        have ho2' : slotOff ht b2 i2 ≠ 0 := by
          rw [hs2] at ho2
          exact ho2
        have hr2 := hwf.regions b2 i2 hi2 ho2'
        have hlt2 : slotOff ht b2 i2 < ht.log_head := by omega
        right
        rw [hs2, hdec, hold _ hlt2]
        omega
      · obtain ⟨rfl, rfl⟩ := hb2
        have hs1 := hsame b1 i1 hb1
        have ho1' : slotOff ht b1 i1 ≠ 0 := by
          rw [hs1] at ho1
          exact ho1
        have hr1 := hwf.regions b1 i1 hi1 ho1'
        have hlt1 : slotOff ht b1 i1 < ht.log_head := by omega
        left
        rw [hs1, hdec, hold _ hlt1]
        omega
      · have hs1 := hsame b1 i1 hb1
        have hs2 := hsame b2 i2 hb2
        have ho1' : slotOff ht b1 i1 ≠ 0 := by
          rw [hs1] at ho1
          exact ho1
        have ho2' : slotOff ht b2 i2 ≠ 0 := by
          rw [hs2] at ho2
          exact ho2
        have hlt1 : slotOff ht b1 i1 < ht.log_head := by
          have := hwf.regions b1 i1 hi1 ho1'
          omega
        have hlt2 : slotOff ht b2 i2 < ht.log_head := by
          have := hwf.regions b2 i2 hi2 ho2'
          omega
        rw [hs1, hs2, hold _ hlt1, hold _ hlt2]
        exact hwf.disj b1 i1 b2 i2 hi1 hi2 hne ho1' ho2'

theorem wf_runOp {p : NdnParams} {op : NdnOp} {ht ht' : NdnHt}
    (hwf : Wf p ht) (hop : ValidOp p op) (h : runOp p op ht = some ht') :
    Wf p ht' := by
  cases op with
  | ins k it dp =>
      simp only [runOp] at h
      rcases hins : ndn_ht_insert p k it dp ht with _ | ⟨r, ht''⟩
      · rw [hins] at h
        simp at h
      · rw [hins] at h
        simp only [Option.map_some'] at h
        injection h with h
        subst h
        exact wf_insert hwf hop hins
  | look k it dp =>
      simp only [runOp] at h
      injection h with h
      subst h
      exact wf_contains p k it dp ht hwf

theorem wf_runSeq {p : NdnParams} {ops : List NdnOp} {ht ht' : NdnHt}
    (hwf : Wf p ht) (hops : ∀ op ∈ ops, ValidOp p op)
    (h : runSeq p ops ht = some ht') : Wf p ht' := by
  induction ops generalizing ht with
  | nil =>
      simp only [runSeq] at h
      injection h with h
      subst h
      exact hwf
  | cons op rest ih =>
      simp only [runSeq] at h
      rcases hop : runOp p op ht with _ | ht1
      · rw [hop] at h
        cases h
      · rw [hop] at h
        exact ih (wf_runOp hwf (hops op (by simp)) hop)
          (fun o ho => hops o (by simp [ho])) h

/-! Stability: a fully-matching slot for a valid key keeps matching after any
further operation, and the metadata bytes of a terminal record are never
written again. -/

theorem match_preserved_runOp {p : NdnParams} {key : List Nat} {op : NdnOp}
    {ht ht' : NdnHt} {bi : Nat × Nat} (hwf : Wf p ht) (hk : ValidKey p key)
    (hi8 : bi.2 < 8)
    (hm : slotMatch ht.log key (containsTag key) (ht.index bi.1 bi.2) = true)
    (h : runOp p op ht = some ht') :
    slotMatch ht'.log key (containsTag key) (ht'.index bi.1 bi.2) = true := by
  obtain ⟨hhead, hidx, hlog⟩ := runOp_frame h
  obtain ⟨ho, htag, hlen, hbytes⟩ := slotMatch_iff.mp hm
  have ho' : slotOff ht bi.1 bi.2 ≠ 0 := ho
  have hslot : ht'.index bi.1 bi.2 = ht.index bi.1 bi.2 := hidx bi.1 bi.2 ho'
  have hreg := hwf.regions bi.1 bi.2 hi8 ho'
  obtain ⟨hlen2, hlenM, hb⟩ := hk
  have h255 := p.maxUrlLen_le
  have hlo : ht.log (slotOff ht bi.1 bi.2) = key.length := by
    have : key.length % 256 = key.length := Nat.mod_eq_of_lt (by omega)
    rw [← this]
    exact hlen
  have hstable : ∀ x, inRegion ht (slotOff ht bi.1 bi.2) x →
      x ≠ slotOff ht bi.1 bi.2 + 1 → x ≠ slotOff ht bi.1 bi.2 + 2 →
      ht'.log x = ht.log x := by
    intro x hxin hx1 hx2
    by_contra hne
    have hxlt : x < ht.log_head := by
      unfold inRegion at hxin
      omega
    obtain ⟨b', i', hi', hocc', hup, hor⟩ := hlog x hxlt hne
    have hx_in' : inRegion ht (slotOff ht b' i') x := by
      unfold inRegion
      rcases hor with h1 | h1 <;> omega
    have heq := region_inter hwf hi8 hi' ho' hocc' hxin hx_in'
    rw [Prod.mk.injEq] at heq
    have hoo : slotOff ht b' i' = slotOff ht bi.1 bi.2 := by
      rw [← heq.1, ← heq.2]
    rw [hoo] at hor
    rcases hor with h1 | h1
    · exact hx1 h1
    · exact hx2 h1
  rw [slotMatch_iff, hslot]
  refine ⟨ho, htag, ?_, ?_⟩
  · show ht'.log (slotOff ht bi.1 bi.2) = key.length % 256
    rw [hstable (slotOff ht bi.1 bi.2) ⟨le_rfl, by omega⟩ (by omega) (by omega)]
    exact hlen
  · show logKeyBytes ht'.log (slotOff ht bi.1 bi.2) key.length = key
    unfold logKeyBytes
    unfold logKeyBytes at hbytes
    have hcg : ∀ j ∈ List.range key.length,
        ht'.log (slotOff ht bi.1 bi.2 + 3 + j) = ht.log (slotOff ht bi.1 bi.2 + 3 + j) := by
      intro j hj
      have hjlt := List.mem_range.mp hj
      apply hstable
      · unfold inRegion
        constructor
        · omega
        · rw [hlo]
          omega
      · omega
      · omega
    rw [List.map_congr_left hcg]
    exact hbytes

theorem match_preserved_runSeq {p : NdnParams} {key : List Nat} {ops : List NdnOp}
    {ht ht' : NdnHt} {bi : Nat × Nat} (hwf : Wf p ht) (hk : ValidKey p key)
    (hi8 : bi.2 < 8)
    (hm : slotMatch ht.log key (containsTag key) (ht.index bi.1 bi.2) = true)
    (hops : ∀ op ∈ ops, ValidOp p op) (h : runSeq p ops ht = some ht') :
    slotMatch ht'.log key (containsTag key) (ht'.index bi.1 bi.2) = true := by
  induction ops generalizing ht with
  | nil =>
      simp only [runSeq] at h
      injection h with h
      subst h
      exact hm
  | cons op rest ih =>
      simp only [runSeq] at h
      rcases hop : runOp p op ht with _ | ht1
      · rw [hop] at h
        cases h
      · rw [hop] at h
        exact ih (wf_runOp hwf (hops op (by simp)) hop)
          (match_preserved_runOp hwf hk hi8 hm hop)
          (fun o ho => hops o (by simp [ho])) h

theorem latch_runOp {p : NdnParams} {op : NdnOp} {ht ht' : NdnHt} {b i : Nat}
    (hwf : Wf p ht) (hi : i < 8) (ho : slotOff ht b i ≠ 0)
    (hterm : ht.log (slotOff ht b i + 1) ≠ 0) (h : runOp p op ht = some ht') :
    slotOff ht' b i = slotOff ht b i ∧
    ht'.log (slotOff ht b i + 1) = ht.log (slotOff ht b i + 1) ∧
    ht'.log (slotOff ht b i + 2) = ht.log (slotOff ht b i + 2) := by
  obtain ⟨hhead, hidx, hlog⟩ := runOp_frame h
  have hslot : ht'.index b i = ht.index b i := hidx b i ho
  have hreg := hwf.regions b i hi ho
  have hmeta : ∀ x, inRegion ht (slotOff ht b i) x → ht'.log x = ht.log x := by
    intro x hxin
    by_contra hne
    have hxlt : x < ht.log_head := by
      unfold inRegion at hxin
      omega
    obtain ⟨b', i', hi', hocc', hup, hor⟩ := hlog x hxlt hne
    have hx_in' : inRegion ht (slotOff ht b' i') x := by
      unfold inRegion
      rcases hor with h1 | h1 <;> omega
    have heq := region_inter hwf hi hi' ho hocc' hxin hx_in'
    rw [Prod.mk.injEq] at heq
    have hoo : slotOff ht b' i' = slotOff ht b i := by
      rw [← heq.1, ← heq.2]
    rw [hoo] at hup
    exact hterm hup
  refine ⟨?_, ?_, ?_⟩
  · unfold slotOff
    rw [hslot]
  · exact hmeta _ ⟨by omega, by omega⟩
  · exact hmeta _ ⟨by omega, by omega⟩

theorem latch_runSeq {p : NdnParams} {ops : List NdnOp} {ht ht' : NdnHt} {b i : Nat}
    (hwf : Wf p ht) (hi : i < 8) (ho : slotOff ht b i ≠ 0)
    (hterm : ht.log (slotOff ht b i + 1) ≠ 0)
    (hops : ∀ op ∈ ops, ValidOp p op) (h : runSeq p ops ht = some ht') :
    ht'.log (slotOff ht b i + 1) = ht.log (slotOff ht b i + 1) ∧
    ht'.log (slotOff ht b i + 2) = ht.log (slotOff ht b i + 2) := by
  induction ops generalizing ht with
  | nil =>
      simp only [runSeq] at h
      injection h with h
      subst h
      exact ⟨rfl, rfl⟩
  | cons op rest ih =>
      simp only [runSeq] at h
      rcases hop : runOp p op ht with _ | ht1
      · rw [hop] at h
        cases h
      · rw [hop] at h
        obtain ⟨hs, h1, h2⟩ := latch_runOp hwf hi ho hterm hop
        have hwf1 := wf_runOp hwf (hops op (by simp)) hop
        have ho1 : slotOff ht1 b i ≠ 0 := by
          rw [hs]
          exact ho
        have hterm1 : ht1.log (slotOff ht1 b i + 1) ≠ 0 := by
          rw [hs, h1]
          exact hterm
        obtain ⟨ih1, ih2⟩ := ih hwf1 ho1 hterm1 (fun o hmem => hops o (by simp [hmem])) h
        rw [hs] at ih1 ih2
        exact ⟨ih1.trans h1, ih2.trans h2⟩

/-- After the append branch fills slot `bi`, that slot fully matches the
inserted key under the lookup scan's match test. -/
theorem match_after_append {p : NdnParams} {key : List Nat} {it : Nat} {dp : Int}
    {ht : NdnHt} {bi : Nat × Nat} (hwf : Wf p ht) (hk : ValidKey p key)
    (hfe : findEmptySlot p ht key = some bi)
    (hcap : ht.log_head + p.headroom < p.logCap) :
    bi ∈ scanPositions (containsBkt1 p key) (containsBkt2 p key) ∧
    slotMatch (appendState p ht key it dp bi).log key (containsTag key)
      ((appendState p ht key it dp bi).index bi.1 bi.2) = true := by
  obtain ⟨hi8, hbkt, hempty⟩ := findEmptySlot_some hfe
  obtain ⟨hlen2, hlenM, hb⟩ := hk
  have hcaple := p.logCap_le
  have hhr := p.headroom_ge
  have hoff_lt : ht.log_head < 2 ^ 48 := by omega
  have hpos := hwf.head_pos
  have hmem : bi ∈ scanPositions (containsBkt1 p key) (containsBkt2 p key) := by
    apply mem_scanPositions.mpr
    rw [← insertBkt1_eq, ← insertBkt2_eq]
    exact ⟨hi8, hbkt⟩
  refine ⟨hmem, ?_⟩
  have hidx : (appendState p ht key it dp bi).index bi.1 bi.2 =
      (insertTag key <<< 48) ||| ht.log_head := by
    unfold appendState
    dsimp only
    rw [if_pos ⟨rfl, rfl⟩]
  rw [hidx, slotMatch_iff]
  have hso : slotToOffset ((insertTag key <<< 48) ||| ht.log_head) = ht.log_head :=
    slotToOffset_pack _ _ hoff_lt
  have hst : slotToTag ((insertTag key <<< 48) ||| ht.log_head) = insertTag key :=
    slotToTag_pack _ _ hoff_lt
  refine ⟨by rw [hso]; omega, by rw [hst]; exact insertTag_eq key, ?_, ?_⟩
  · rw [hso]
    show writeRecord ht.log ht.log_head key it (dstByte dp) ht.log_head = key.length % 256
    exact writeRecord_at ht.log ht.log_head key it (dstByte dp)
  · rw [hso]
    show logKeyBytes (writeRecord ht.log ht.log_head key it (dstByte dp))
        ht.log_head key.length = key
    exact logKeyBytes_writeRecord ht.log ht.log_head key it (dstByte dp)

/-! Claim theorems. -/

/-- C1: every key of valid length that was inserted successfully
(`ndn_ht_insert` returned 0) is found by a subsequent no-upgrade lookup
(`ndn_contains` with `is_terminal = 0` returns 1), both immediately after the
insertion (`ops = []`) and after any number of further operations, in
particular successful insertions of other keys. -/
theorem round_trip_after_inserts (p : NdnParams) (key : List Nat) (it : Nat)
    (dp : Int) (ht ht₁ ht₂ : NdnHt) (ops : List NdnOp) (d : Int)
    (hwf : Wf p ht) (hk : ValidKey p key)
    (hins : ndn_ht_insert p key it dp ht = some (0, ht₁))
    (hops : ∀ op ∈ ops, ValidOp p op)
    (hseq : runSeq p ops ht₁ = some ht₂) :
    (ndn_contains p key 0 d ht₂).1 = 1 := by
  have hstep : ∃ bi, bi ∈ scanPositions (containsBkt1 p key) (containsBkt2 p key) ∧
      slotMatch ht₁.log key (containsTag key) (ht₁.index bi.1 bi.2) = true := by
    rcases insert_eq_cases hins with ⟨hf, _, rfl⟩ | ⟨hnf, ⟨_, hr, _⟩ | ⟨bi, hfe, hcap, _, rfl⟩⟩
    · have hsome := ndn_contains_found_iff.mp hf
      rcases hmk : findMatchSlot p ht key with _ | bj
      · rw [hmk] at hsome
        simp at hsome
      · obtain ⟨hi8, hbkt, hmatch⟩ := findMatchSlot_some hmk
        have hmem : bj ∈ scanPositions (containsBkt1 p key) (containsBkt2 p key) :=
          mem_scanPositions.mpr ⟨hi8, hbkt⟩
        have hlook : runOp p (.look key it dp) ht =
            some ((ndn_contains p key it dp ht).2) := rfl
        exact ⟨bj, hmem, match_preserved_runOp hwf hk hi8 hmatch hlook⟩
    · exact absurd hr (by norm_num)
    · obtain ⟨hmem, hmatch⟩ := match_after_append hwf hk hfe hcap
      exact ⟨bi, hmem, hmatch⟩
  obtain ⟨bi, hmem, hm1⟩ := hstep
  have hwf1 : Wf p ht₁ := wf_insert hwf hk hins
  have hm2 := match_preserved_runSeq hwf1 hk (mem_scanPositions.mp hmem).1 hm1 hops hseq
  exact ndn_contains_found_iff.mpr (findMatchSlot_isSome_of hmem hm2)

/-- C2: inserting a key that is already present (any `is_terminal`/`dst_port`
arguments) returns success 0, writes no slot (the whole bucket index is
unchanged), and does not move the log append cursor `log_head` (zero log
growth, so no second record is created). -/
theorem insert_idempotent_on_present (p : NdnParams) (key : List Nat) (it : Nat)
    (dp : Int) (ht : NdnHt) (hpres : (ndn_contains p key 0 0 ht).1 = 1) :
    ndn_ht_insert p key it dp ht = some (0, (ndn_contains p key it dp ht).2) ∧
    (ndn_contains p key it dp ht).2.log_head = ht.log_head ∧
    (ndn_contains p key it dp ht).2.index = ht.index := by
  have hf : (ndn_contains p key it dp ht).1 = 1 :=
    (ndn_contains_fst_congr p key it 0 dp 0 ht).trans hpres
  obtain ⟨hidx, hhead, _⟩ := contains_frame p key it dp ht
  exact ⟨insert_of_found hf, hhead, hidx⟩

/-- C3: (a) when a lookup finds a matching record that is currently
non-terminal and the caller requests terminal status, the record's
`is_terminal` byte is set to 1 and its `dst_port` byte to the supplied port;
(b) once a record's `is_terminal` byte is nonzero, no sequence of later
lookups or inserts (with any arguments) changes its `is_terminal` or
`dst_port` bytes. -/
theorem terminal_upgrade_latch (p : NdnParams) :
    (∀ (key : List Nat) (dp : Int) (ht : NdnHt) (bi : Nat × Nat),
       findMatchSlot p ht key = some bi →
       ht.log (slotOff ht bi.1 bi.2 + 1) = 0 →
       (ndn_contains p key 1 dp ht).1 = 1 ∧
       (ndn_contains p key 1 dp ht).2.log (slotOff ht bi.1 bi.2 + 1) = 1 ∧
       (ndn_contains p key 1 dp ht).2.log (slotOff ht bi.1 bi.2 + 2) = dstByte dp) ∧
    (∀ (ht : NdnHt) (b i : Nat) (ops : List NdnOp) (ht' : NdnHt),
       Wf p ht → i < 8 → slotOff ht b i ≠ 0 →
       ht.log (slotOff ht b i + 1) ≠ 0 → (∀ op ∈ ops, ValidOp p op) →
       runSeq p ops ht = some ht' →
       ht'.log (slotOff ht b i + 1) = ht.log (slotOff ht b i + 1) ∧
       ht'.log (slotOff ht b i + 2) = ht.log (slotOff ht b i + 2)) := by
  constructor
  · intro key dp ht bi hfind h0
    unfold ndn_contains
    rw [hfind]
    dsimp only
    rw [if_pos ⟨h0, rfl⟩]
    refine ⟨rfl, ?_, ?_⟩
    · dsimp only
      rw [if_pos rfl]
    · dsimp only
      rw [if_neg (by omega), if_pos rfl]
  · intro ht b i ops ht' hwf hi ho hterm hops h
    exact latch_runSeq hwf hi ho hterm hops h

/-- C4: once the insert path has established that the key is absent and an
empty slot exists, the append is guarded by the capacity check
`log_head + headroom < log_capacity`: if the check fails the insert is the
fatal capacity-exhaustion abort (`none`) and nothing is appended, and if it
holds the insert succeeds, the cursor advances by the record size, the cursor
stays within capacity, and no log byte at or past the configured capacity is
written. -/
theorem log_capacity_check (p : NdnParams) (key : List Nat) (it : Nat) (dp : Int)
    (ht : NdnHt) (bi : Nat × Nat) (hk : ValidKey p key)
    (hnf : findMatchSlot p ht key = none)
    (hfe : findEmptySlot p ht key = some bi) :
    (¬ ht.log_head + p.headroom < p.logCap → ndn_ht_insert p key it dp ht = none) ∧
    (ht.log_head + p.headroom < p.logCap →
      ndn_ht_insert p key it dp ht = some (0, appendState p ht key it dp bi) ∧
      (appendState p ht key it dp bi).log_head = ht.log_head + (3 + key.length) ∧
      (appendState p ht key it dp bi).log_head ≤ p.logCap ∧
      ∀ j, p.logCap ≤ j → (appendState p ht key it dp bi).log j = ht.log j) := by
  constructor
  · intro hcap
    exact insert_capacity hnf hfe hcap it dp
  · intro hcap
    obtain ⟨hlen2, hlenM, _⟩ := hk
    have hhr := p.headroom_ge
    refine ⟨insert_append hnf hfe hcap it dp, rfl, ?_, ?_⟩
    · show ht.log_head + (3 + key.length) ≤ p.logCap
      omega
    · intro j hj
      apply writeRecord_other
      right
      omega

/-- C5: `ndn_ht_insert` returns the recoverable per-key failure -1 exactly
when the key is absent and all 16 slots of its two candidate buckets are
occupied; if the key is present it returns 0, if a slot is free and the log
has headroom it returns 0, and after a -1 failure the structure is unchanged
so any later insert behaves exactly as it would have before the failure. -/
theorem bucket_full_failure (p : NdnParams) (key : List Nat) (it : Nat) (dp : Int)
    (ht : NdnHt) :
    ((ndn_contains p key 0 0 ht).1 = 1 →
       ndn_ht_insert p key it dp ht = some (0, (ndn_contains p key it dp ht).2)) ∧
    ((ndn_contains p key 0 0 ht).1 = 0 → ¬ bucketsFull p ht key →
       ht.log_head + p.headroom < p.logCap →
       ∃ ht', ndn_ht_insert p key it dp ht = some (0, ht')) ∧
    (∀ ht', ndn_ht_insert p key it dp ht = some (-1, ht') ↔
       ((ndn_contains p key 0 0 ht).1 = 0 ∧ bucketsFull p ht key ∧ ht' = ht)) ∧
    (∀ (ht' : NdnHt) (k' : List Nat) (it' : Nat) (dp' : Int),
       ndn_ht_insert p key it dp ht = some (-1, ht') →
       ndn_ht_insert p k' it' dp' ht' = ndn_ht_insert p k' it' dp' ht) := by
  refine ⟨?_, ?_, ?_, ?_⟩
  · intro h1
    exact insert_of_found ((ndn_contains_fst_congr p key it 0 dp 0 ht).trans h1)
  · intro h0 hnfull hcap
    have hnone : findMatchSlot p ht key = none := ndn_contains_zero_iff.mp h0
    rcases hfe : findEmptySlot p ht key with _ | bi
    · exact absurd (findEmptySlot_none_iff.mp hfe) hnfull
    · exact ⟨_, insert_append hnone hfe hcap it dp⟩
  · intro ht'
    constructor
    · intro h
      rcases insert_eq_cases h with ⟨_, hr, _⟩ | ⟨hnf, ⟨hfe, _, rfl⟩ | ⟨_, _, _, hr, _⟩⟩
      · exact absurd hr (by norm_num)
      · exact ⟨ndn_contains_zero_iff.mpr hnf, findEmptySlot_none_iff.mp hfe, rfl⟩
      · exact absurd hr (by norm_num)
    · rintro ⟨h0, hfull, rfl⟩
      exact insert_bucketFull (ndn_contains_zero_iff.mp h0)
        (findEmptySlot_none_iff.mpr hfull) it dp
  · intro ht' k' it' dp' h
    rcases insert_eq_cases h with ⟨_, hr, _⟩ | ⟨_, ⟨_, _, rfl⟩ | ⟨_, _, _, hr, _⟩⟩
    · exact absurd hr (by norm_num)
    · rfl
    · exact absurd hr (by norm_num)

/-- C7: the insert path and the lookup path compute the same tag and the same
two candidate buckets for every key, and these agree with the spec formulas:
primary = `hash64(key) & (NUM_BUCKETS - 1)`, secondary =
`(primary XOR hash64(tag_bytes)) & (NUM_BUCKETS - 1)`, and the tag is derived
from the single byte immediately preceding the terminator
(`url[len - 2]`, sign-extended to 16 bits). -/
theorem bucket_derivation_identical (p : NdnParams) (key : List Nat) :
    insertTag key = containsTag key ∧
    insertBkt1 p key = containsBkt1 p key ∧
    insertBkt2 p key = containsBkt2 p key ∧
    containsBkt1 p key = spec_primary_bucket p key ∧
    containsBkt2 p key = spec_secondary_bucket p (containsBkt1 p key) (containsTag key) ∧
    containsTag key =
      (if 128 ≤ key.getD (key.length - 2) 0 then 65280 + key.getD (key.length - 2) 0
       else key.getD (key.length - 2) 0) :=
  ⟨rfl, rfl, rfl, rfl, rfl, rfl⟩

/-- C8: the structure is created with `log_head = 1` and all slots zero; a
successful append writes its slot with the (nonzero) old `log_head` as offset;
the lookup scan only ever matches occupied slots (nonzero offset) and the
insert scan only ever picks slots with offset 0; and `log_head ≥ 1` together
with the occupied slots' contents is preserved by every operation. -/
theorem offset_zero_sentinel (p : NdnParams) :
    (ndn_new.log_head = 1 ∧ ∀ b i, ndn_new.index b i = 0) ∧
    (∀ (key : List Nat) (it : Nat) (dp : Int) (ht : NdnHt) (bi : Nat × Nat),
       Wf p ht → findMatchSlot p ht key = none →
       findEmptySlot p ht key = some bi → ht.log_head + p.headroom < p.logCap →
       ndn_ht_insert p key it dp ht = some (0, appendState p ht key it dp bi) ∧
       slotOff (appendState p ht key it dp bi) bi.1 bi.2 = ht.log_head ∧
       ht.log_head ≠ 0) ∧
    (∀ (ht : NdnHt) (key : List Nat) (bi : Nat × Nat),
       findMatchSlot p ht key = some bi → slotOff ht bi.1 bi.2 ≠ 0) ∧
    (∀ (ht : NdnHt) (key : List Nat) (bi : Nat × Nat),
       findEmptySlot p ht key = some bi → slotOff ht bi.1 bi.2 = 0) ∧
    (∀ (op : NdnOp) (ht ht' : NdnHt), 1 ≤ ht.log_head → runOp p op ht = some ht' →
       1 ≤ ht'.log_head ∧ ∀ b i, slotOff ht b i ≠ 0 → ht'.index b i = ht.index b i) := by
  refine ⟨⟨rfl, fun b i => rfl⟩, ?_, ?_, ?_, ?_⟩
  · intro key it dp ht bi hwf hnf hfe hcap
    have hcaple := p.logCap_le
    have hhr := p.headroom_ge
    have hoff_lt : ht.log_head < 2 ^ 48 := by omega
    have hdec : slotOff (appendState p ht key it dp bi) bi.1 bi.2 = ht.log_head := by
      unfold slotOff appendState
      dsimp only
      rw [if_pos ⟨rfl, rfl⟩]
      exact slotToOffset_pack _ _ hoff_lt
    have hpos := hwf.head_pos
    exact ⟨insert_append hnf hfe hcap it dp, hdec, by omega⟩
  · intro ht key bi h
    exact (slotMatch_iff.mp (findMatchSlot_some h).2.2).1
  · intro ht key bi h
    exact (findEmptySlot_some h).2.2
  · intro op ht ht' hpos h
    obtain ⟨hhead, hidx, _⟩ := runOp_frame h
    exact ⟨by omega, hidx⟩

/-- C9: a no-upgrade lookup (`is_terminal = 0`) never mutates the state, found
or not; a successful upgrading lookup leaves the bucket index and `log_head`
unchanged and modifies no log byte other than the `is_terminal` and `dst_port`
bytes of the single matched record. -/
theorem lookup_frame (p : NdnParams) :
    (∀ (key : List Nat) (dp : Int) (ht : NdnHt),
       (ndn_contains p key 0 dp ht).2 = ht) ∧
    (∀ (key : List Nat) (dp : Int) (ht ht' : NdnHt),
       ndn_contains p key 1 dp ht = (1, ht') →
       ht'.index = ht.index ∧ ht'.log_head = ht.log_head ∧
       ∃ bi, findMatchSlot p ht key = some bi ∧
         ∀ j, j ≠ slotOff ht bi.1 bi.2 + 1 → j ≠ slotOff ht bi.1 bi.2 + 2 →
           ht'.log j = ht.log j) := by
  constructor
  · intro key dp ht
    rcases ndn_contains_snd_cases p key 0 dp ht with h | ⟨_, _, _, h1, _⟩
    · exact h
    · exact absurd h1 (by norm_num)
  · intro key dp ht ht' h
    have hsnd : (ndn_contains p key 1 dp ht).2 = ht' := by rw [h]
    have hfst : (ndn_contains p key 1 dp ht).1 = 1 := by rw [h]
    have hfound : (findMatchSlot p ht key).isSome := ndn_contains_found_iff.mp hfst
    rcases ndn_contains_snd_cases p key 1 dp ht with h2 | ⟨bj, hfind, h0, _, h2⟩
    · rw [h2] at hsnd
      subst hsnd
      rcases hmk : findMatchSlot p ht key with _ | bi
      · rw [hmk] at hfound
        simp at hfound
      · exact ⟨rfl, rfl, bi, rfl, fun j _ _ => rfl⟩
    · rw [h2] at hsnd
      subst hsnd
      refine ⟨rfl, rfl, bj, hfind, ?_⟩
      intro j hj1 hj2
      show (if j = slotOff ht bj.1 bj.2 + 1 then 1
            else if j = slotOff ht bj.1 bj.2 + 2 then dstByte dp
            else ht.log j) = ht.log j
      rw [if_neg hj1, if_neg hj2]

/-- C10: a bucket-full insert (return -1) leaves the structure completely
unchanged, and a lookup that does not find the key (return 0) mutates nothing
even when an upgrade was requested. -/
theorem failure_paths_atomic (p : NdnParams) (key : List Nat) (it : Nat)
    (dp : Int) (ht : NdnHt) :
    (∀ ht', ndn_ht_insert p key it dp ht = some (-1, ht') → ht' = ht) ∧
    ((ndn_contains p key it dp ht).1 = 0 → (ndn_contains p key it dp ht).2 = ht) := by
  constructor
  · intro ht' h
    rcases insert_eq_cases h with ⟨_, hr, _⟩ | ⟨_, ⟨_, _, rfl⟩ | ⟨_, _, _, hr, _⟩⟩
    · exact absurd hr (by norm_num)
    · rfl
    · exact absurd hr (by norm_num)
  · intro h0
    rw [ndn_contains_not_found (ndn_contains_zero_iff.mp h0) it dp]

/-! The prefix-generation loop of `ndn_init`. -/

theorem joinSlash_cons_ne (a : List Nat) (t : List (List Nat)) (ht : t ≠ []) :
    joinSlash (a :: t) = a ++ 47 :: joinSlash t := by
  cases t with
  | nil => exact absurd rfl ht
  | cons x xs => rfl

theorem bulkCalls_no_slash (port : Int) (pre comp : List Nat)
    (hc : ∀ b ∈ comp, b ≠ 47) :
    bulkCalls port pre comp = [(pre ++ comp ++ [47], 1, port)] := by
  induction comp generalizing pre with
  | nil => simp [bulkCalls]
  | cons c cs ih =>
      have hc' : c ≠ 47 := hc c (by simp)
      simp only [bulkCalls]
      rw [if_neg hc', ih (pre ++ [c]) (fun b hb => hc b (by simp [hb]))]
      simp

theorem bulkCalls_comp (port : Int) (pre comp rest : List Nat)
    (hc : ∀ b ∈ comp, b ≠ 47) :
    bulkCalls port pre (comp ++ 47 :: rest) =
      (pre ++ comp ++ [47], 0, -1) :: bulkCalls port (pre ++ comp ++ [47]) rest := by
  induction comp generalizing pre with
  | nil =>
      simp [bulkCalls]
  | cons c cs ih =>
      have hc' : c ≠ 47 := hc c (by simp)
      simp only [List.cons_append, bulkCalls, List.append_eq]
      rw [if_neg hc', ih (pre ++ [c]) (fun b hb => hc b (by simp [hb]))]
      simp

theorem bulkCalls_general (port : Int) : ∀ (comps : List (List Nat)) (pre : List Nat),
    comps ≠ [] → (∀ c ∈ comps, ∀ b ∈ c, b ≠ 47) →
    bulkCalls port pre (joinSlash comps) =
      ((List.range (comps.length - 1)).map fun j =>
        (pre ++ joinSlash (comps.take (j + 1)) ++ [47], 0, (-1 : Int))) ++
      [(pre ++ joinSlash comps ++ [47], 1, port)] := by
  intro comps
  induction comps with
  | nil => exact fun pre hne _ => absurd rfl hne
  | cons a rest ih =>
      intro pre _ hcomps
      cases rest with
      | nil =>
          show bulkCalls port pre a = _
          rw [bulkCalls_no_slash port pre a (hcomps a (by simp))]
          simp [joinSlash]
      | cons b rest' =>
          rw [joinSlash_cons_ne a (b :: rest') (by simp),
            bulkCalls_comp port pre a (joinSlash (b :: rest')) (hcomps a (by simp)),
            ih (pre ++ a ++ [47]) (by simp) (fun c hc => hcomps c (by simp [hc]))]
          have hlen : (a :: b :: rest').length - 1 = rest'.length + 1 := by simp
          have hlen2 : (b :: rest').length - 1 = rest'.length := by simp
          simp only [hlen, hlen2, List.range_succ_eq_map, List.map_cons, List.map_map,
            List.cons_append, List.take_succ_cons, List.take_zero, joinSlash,
            Function.comp]
          simp [List.append_assoc]
          intro j hj
          rw [joinSlash_cons_ne a (b :: List.take j rest') (by simp)]
          simp

/-- C6: for a name given by its `/`-delimited components (scanned token
`joinSlash comps`, to which the loop appends the terminating `'/'`), the bulk
loader issues one non-terminal insert call (port -1) for every proper prefix
of the full name ending in `'/'`, in increasing length order, followed by one
terminal insert call of the full name with the supplied port — exactly `k`
insert calls for a name of `k` components. -/
theorem bulk_load_prefix_calls (port : Int) (comps : List (List Nat))
    (hne : comps ≠ [])
    (hcomps : ∀ c ∈ comps, c ≠ [] ∧ ∀ b ∈ c, b ≠ 47 ∧ b ≠ 0) :
    bulkCalls port [] (joinSlash comps) =
      ((List.range (comps.length - 1)).map fun j =>
        (joinSlash (comps.take (j + 1)) ++ [47], 0, (-1 : Int))) ++
      [(joinSlash comps ++ [47], 1, port)] ∧
    (bulkCalls port [] (joinSlash comps)).length = comps.length := by
  have h := bulkCalls_general port comps [] hne
    (fun c hc b hb => ((hcomps c hc).2 b hb).1)
  have hpos : 1 ≤ comps.length := List.length_pos.mpr hne
  constructor
  · rw [h]
    simp
  · rw [h]
    simp
    omega

/-! Evaluations of the model on the concrete fixtures, used to instantiate the
claim theorems at sample inputs. -/

theorem valid_keyA : ValidKey pTest keyA := ⟨by decide, by decide, by decide⟩

theorem insA_term : ndn_ht_insert pTest keyA 1 7 ndn_new = some (0, htT) := rfl

theorem insA_nonterm : ndn_ht_insert pTest keyA 0 0 ndn_new = some (0, htN) := rfl

theorem wf_htT : Wf pTest htT := wf_insert (wf_new pTest) valid_keyA insA_term

theorem seqB : runSeq pTest [.ins keyB 0 0] htT = some htT2 := rfl

theorem runB : runOp pTest (.ins keyB 0 0) htT = some htT2 := rfl

theorem seqLook : runSeq pTest [.look keyA 1 9] htT = some htLook := rfl

theorem seqFull : runSeq pFull opsFull ndn_new = some htFull := rfl

theorem insFull9 : ndn_ht_insert pFull key9 0 5 htFull = some (-1, htFull) := rfl

theorem containsU : ndn_contains pTest keyA 1 5 htN = (1, htU) := rfl

/-! Witnesses instantiating the claim theorems at the fixtures. -/

/-- Witness for C1: `keyA` is still found after a later insert of `keyB`. -/
theorem round_trip_after_inserts_witness : (ndn_contains pTest keyA 0 0 htT2).1 = 1 :=
  round_trip_after_inserts pTest keyA 1 7 ndn_new htT htT2 [.ins keyB 0 0] 0
    (wf_new pTest) valid_keyA insA_term
    (by
      intro op hop
      simp only [List.mem_singleton] at hop
      subst hop
      exact ⟨by decide, by decide, by decide⟩)
    seqB

/-- Witness for C2: re-inserting the present `keyA` succeeds, moves no slot and
does not grow the log. -/
theorem insert_idempotent_witness :
    ndn_ht_insert pTest keyA 1 9 htN = some (0, (ndn_contains pTest keyA 1 9 htN).2) ∧
    (ndn_contains pTest keyA 1 9 htN).2.log_head = htN.log_head ∧
    (ndn_contains pTest keyA 1 9 htN).2.index = htN.index :=
  insert_idempotent_on_present pTest keyA 1 9 htN (by decide)

/-- Witness for C3: upgrading the non-terminal `keyA` record sets its bytes,
and a later upgrade attempt with port 9 leaves the terminal record unchanged. -/
theorem terminal_upgrade_latch_witness :
    ((ndn_contains pTest keyA 1 5 htN).1 = 1 ∧
     (ndn_contains pTest keyA 1 5 htN).2.log
        (slotOff htN (containsBkt1 pTest keyA) 0 + 1) = 1 ∧
     (ndn_contains pTest keyA 1 5 htN).2.log
        (slotOff htN (containsBkt1 pTest keyA) 0 + 2) = dstByte 5) ∧
    (htLook.log (slotOff htT (containsBkt1 pTest keyA) 0 + 1) =
        htT.log (slotOff htT (containsBkt1 pTest keyA) 0 + 1) ∧
     htLook.log (slotOff htT (containsBkt1 pTest keyA) 0 + 2) =
        htT.log (slotOff htT (containsBkt1 pTest keyA) 0 + 2)) :=
  ⟨(terminal_upgrade_latch pTest).1 keyA 5 htN (containsBkt1 pTest keyA, 0)
      (by decide) (by decide),
   (terminal_upgrade_latch pTest).2 htT (containsBkt1 pTest keyA) 0
      [.look keyA 1 9] htLook wf_htT (by norm_num) (by decide) (by decide)
      (by
        intro op hop
        simp only [List.mem_singleton] at hop
        subst hop
        trivial)
      seqLook⟩

/-- Witness for C4: inserting `keyA` into the fresh table passes the capacity
check and appends within capacity. -/
theorem log_capacity_check_witness :
    (¬ ndn_new.log_head + pTest.headroom < pTest.logCap →
       ndn_ht_insert pTest keyA 0 6 ndn_new = none) ∧
    (ndn_new.log_head + pTest.headroom < pTest.logCap →
       ndn_ht_insert pTest keyA 0 6 ndn_new =
         some (0, appendState pTest ndn_new keyA 0 6 (insertBkt1 pTest keyA, 0)) ∧
       (appendState pTest ndn_new keyA 0 6 (insertBkt1 pTest keyA, 0)).log_head =
         ndn_new.log_head + (3 + keyA.length) ∧
       (appendState pTest ndn_new keyA 0 6 (insertBkt1 pTest keyA, 0)).log_head ≤
         pTest.logCap ∧
       ∀ j, pTest.logCap ≤ j →
         (appendState pTest ndn_new keyA 0 6 (insertBkt1 pTest keyA, 0)).log j =
           ndn_new.log j) :=
  log_capacity_check pTest keyA 0 6 ndn_new (insertBkt1 pTest keyA, 0)
    valid_keyA (by decide) (by decide)

/-- Witness for C5: the 9th key into the single full bucket of `pFull` fails
with -1 and the state is unchanged, while an insert with a free slot and
headroom succeeds. -/
theorem bucket_full_failure_witness :
    ((ndn_contains pFull key9 0 0 htFull).1 = 0 ∧ bucketsFull pFull htFull key9 ∧
      htFull = htFull) ∧
    (∃ ht', ndn_ht_insert pTest keyB 0 4 ndn_new = some (0, ht')) :=
  ⟨((bucket_full_failure pFull key9 0 5 htFull).2.2.1 htFull).mp insFull9,
   (bucket_full_failure pTest keyB 0 4 ndn_new).2.1 (by decide)
     (fun hfull => (hfull 0 (by norm_num)).1 (by decide))
     (by decide)⟩

/-- Witness for C6: the name with components `a`, `b`, `c` yields exactly the
three insert calls: non-terminal `a/`, non-terminal `a/b/`, terminal `a/b/c/`
with the supplied port 7. -/
theorem bulk_load_prefix_calls_witness :
    bulkCalls 7 [] (joinSlash [[97], [98], [99]]) =
      [([97, 47], 0, -1), ([97, 47, 98, 47], 0, -1),
       ([97, 47, 98, 47, 99, 47], 1, 7)] ∧
    (bulkCalls 7 [] (joinSlash [[97], [98], [99]])).length = 3 := by
  have h := bulk_load_prefix_calls 7 [[97], [98], [99]] (by decide) (by decide)
  exact ⟨h.1.trans (by decide), h.2.trans (by decide)⟩

/-- Witness for C8: the append into the fresh table writes a nonzero slot, the
scans classify occupied and empty slots by their offsets, and the sentinel
survives the `keyB` insert after `keyA`. -/
theorem offset_zero_sentinel_witness :
    (ndn_ht_insert pTest keyB 0 2 ndn_new =
       some (0, appendState pTest ndn_new keyB 0 2 (insertBkt1 pTest keyB, 0)) ∧
     slotOff (appendState pTest ndn_new keyB 0 2 (insertBkt1 pTest keyB, 0))
        (insertBkt1 pTest keyB) 0 = ndn_new.log_head ∧
     ndn_new.log_head ≠ 0) ∧
    slotOff htN (containsBkt1 pTest keyA) 0 ≠ 0 ∧
    slotOff ndn_new (insertBkt1 pTest keyB) 0 = 0 ∧
    (1 ≤ htT2.log_head ∧ ∀ b i, slotOff htT b i ≠ 0 → htT2.index b i = htT.index b i) :=
  ⟨(offset_zero_sentinel pTest).2.1 keyB 0 2 ndn_new (insertBkt1 pTest keyB, 0)
      (wf_new pTest) (by decide) (by decide) (by decide),
   (offset_zero_sentinel pTest).2.2.1 htN keyA (containsBkt1 pTest keyA, 0) (by decide),
   (offset_zero_sentinel pTest).2.2.2.1 ndn_new keyB (insertBkt1 pTest keyB, 0) (by decide),
   (offset_zero_sentinel pTest).2.2.2.2 (.ins keyB 0 0) htT htT2 (by decide) runB⟩

/-- Witness for C9: the upgrading lookup of `keyA` changes neither index nor
cursor nor any byte outside the matched record's two metadata bytes. -/
theorem lookup_frame_witness :
    htU.index = htN.index ∧ htU.log_head = htN.log_head ∧
    ∃ bi, findMatchSlot pTest htN keyA = some bi ∧
      ∀ j, j ≠ slotOff htN bi.1 bi.2 + 1 → j ≠ slotOff htN bi.1 bi.2 + 2 →
        htU.log j = htN.log j :=
  (lookup_frame pTest).2 keyA 5 htN htU containsU

/-- Witness for C10: the bucket-full failure leaves `htFull` unchanged, and a
not-found upgrading lookup leaves the fresh table unchanged. -/
theorem failure_paths_atomic_witness :
    htFull = htFull ∧ (ndn_contains pTest keyB 1 5 ndn_new).2 = ndn_new :=
  ⟨(failure_paths_atomic pFull key9 0 5 htFull).1 htFull insFull9,
   (failure_paths_atomic pTest keyB 1 5 ndn_new).2 (by decide)⟩

end Ndn
